import Mathlib

/-!
Shallow embedding of the method-reordering tool (src/cmd/root.go) and
verification of its specification.  The `run` function reads a Go file,
parses it, selects the method declarations (receiver present, name not
"New"-prefixed), sorts them by name, and splices the sorted method texts
over the byte region spanned by the original method block.

Bytes are modelled as `Nat`, buffers as `List Nat`, and the parse tree as
the list of top-level declarations with all positions already resolved to
byte offsets (the role of `token.FileSet.Position(...).Offset`).
-/

namespace GoFuncFormatter

/-- A byte of the source buffer. -/
abbrev Byte := Nat

/-- The fields of an `*ast.FuncDecl` that `run` reads: the identifier
`Name.Name` as a byte string, the receiver (`none` models a nil `Recv`,
`some n` a receiver field list with `NumFields() = n`), the position of an
attached doc comment (`none` models a nil `Doc`), the declaration position
`Pos()` and the end position `End()`, each resolved to a byte offset. -/
structure FuncDecl where
  name : List Byte
  recv : Option Nat
  docPos : Option Nat
  pos : Nat
  endPos : Nat
deriving DecidableEq

/-- A top-level declaration of the parsed file: an `*ast.FuncDecl`, or any
other declaration kind (rejected by the type switch in `run`). -/
inductive Decl where
  | funcDecl (f : FuncDecl)
  | other
deriving DecidableEq

/-- The input of the core of `run`: the raw bytes of the file and the
top-level declarations of its parse tree, in source order. -/
structure GoFile where
  src : List Byte
  decls : List Decl

/-- The `Method` struct of src/cmd/root.go: the method name together with
its start and end byte offsets (`end` is a Lean keyword, so the field is
named `stop`). -/
structure Method where
  name : List Byte
  start : Nat
  stop : Nat
deriving DecidableEq

/-- `strings.HasPrefix(name, "New")` on the byte string: `78, 101, 119`
are the bytes of `"New"`. -/
def beginsWithNew (name : List Byte) : Bool :=
  match name with
  | b0 :: b1 :: b2 :: _ => b0 == 78 && b1 == 101 && b2 == 119
  | _ => false

/-- The start offset of a selected declaration (src/cmd/root.go:79-82):
the doc comment position when a doc comment is attached, the declaration
position otherwise. -/
def declStart (f : FuncDecl) : Nat :=
  match f.docPos with
  | some p => p
  | none => f.pos

/-- The selection loop of `run` (src/cmd/root.go:65-86): keep the
`*ast.FuncDecl`s whose receiver is non-nil, skip those whose name begins
with `"New"` while the receiver field list is non-empty, and record name,
start offset and end offset of each kept declaration. -/
def collectMethods : List Decl → List Method
  | [] => []
  | Decl.other :: rest => collectMethods rest
  | Decl.funcDecl f :: rest =>
    match f.recv with
    | none => collectMethods rest
    | some n =>
      if beginsWithNew f.name && decide (0 < n) then
        collectMethods rest
      else
        { name := f.name, start := declStart f, stop := f.endPos } :: collectMethods rest

/-- Go's `<` on strings: byte-wise lexicographic comparison. -/
def bytesLt : List Byte → List Byte → Bool
  | _, [] => false
  | [], _ :: _ => true
  | a :: as, b :: bs => a < b || (a == b && bytesLt as bs)

/-- The reflexive closure of `bytesLt`: the order in which `sort.Sort`
leaves a slice whose `Less` is `bytesLt`. -/
def bytesLe (a b : List Byte) : Bool := !(bytesLt b a)

/-- The order of `ByName.Less` (src/cmd/root.go:26), as a relation on
methods: `m[i].decl.Name.Name < m[j].decl.Name.Name`, closed reflexively. -/
def byNameLe (a b : Method) : Prop := bytesLe a.name b.name = true

instance : DecidableRel byNameLe :=
  fun a b => inferInstanceAs (Decidable (bytesLe a.name b.name = true))

/-- The order of `ByPos.Less` (src/cmd/root.go:32): `m[i].start < m[j].start`,
closed reflexively. -/
def byPosLe (a b : Method) : Prop := a.start ≤ b.start

instance : DecidableRel byPosLe :=
  fun a b => inferInstanceAs (Decidable (a.start ≤ b.start))

/-- The methods selected by `run`, in source order. -/
def selectedMethods (file : GoFile) : List Method :=
  collectMethods file.decls

/-- `sort.Sort(ByName(methods))` (src/cmd/root.go:94): the selected
methods sorted by name; `sort.Sort` is modelled by an insertion sort. -/
def nameSorted (file : GoFile) : List Method :=
  List.insertionSort byNameLe (selectedMethods file)

/-- `sort.Sort(ByPos(posMethods))` (src/cmd/root.go:97-98): a copy of the
selected methods sorted by start offset. -/
def posSorted (file : GoFile) : List Method :=
  List.insertionSort byPosLe (selectedMethods file)

/-- Placeholder method used only as the default of `headD`/`getLastD`;
`run` reaches the splice only when at least one method was selected, so
the default is never read on that path. -/
def defaultMethod : Method :=
  { name := [], start := 0, stop := 0 }

/-- `fSet.Position(posMethods[0].start).Offset` (src/cmd/root.go:99). -/
def firstStartOff (file : GoFile) : Nat :=
  ((posSorted file).headD defaultMethod).start

/-- `fSet.Position(posMethods[len(posMethods)-1].end).Offset`
(src/cmd/root.go:100). -/
def lastEndOff (file : GoFile) : Nat :=
  ((posSorted file).getLastD defaultMethod).stop

/-- The Go slice `src[a:b]` on a byte list. -/
def slice (src : List Byte) (a b : Nat) : List Byte :=
  (src.take b).drop a

/-- `string(src[startOff:endOff])` for each name-sorted method
(src/cmd/root.go:103-108). -/
def sortedSources (file : GoFile) : List (List Byte) :=
  (nameSorted file).map (fun m => slice file.src m.start m.stop)

/-- `strings.Join(sortedSources, "\n\n")` (src/cmd/root.go:110); `10` is
the byte of a newline. -/
def joinedText (file : GoFile) : List Byte :=
  List.intercalate [10, 10] (sortedSources file)

/-- The buffer built at src/cmd/root.go:113-116:
`src[0:firstStartOff] + joined + src[lastEndOff:]`. -/
def output (file : GoFile) : List Byte :=
  file.src.take (firstStartOff file) ++ joinedText file ++ file.src.drop (lastEndOff file)

/-- The two terminal states of `run` after a successful parse: the
"No methods to reorder" early return, or the rewritten buffer. -/
inductive RunResult where
  | noMethods
  | rewritten (out : List Byte)
deriving DecidableEq

/-- The core of `run` (src/cmd/root.go:65-116): select, and either report
that there is nothing to reorder or produce the spliced buffer. -/
def runCore (file : GoFile) : RunResult :=
  match selectedMethods file with
  | [] => RunResult.noMethods
  | _ :: _ => RunResult.rewritten (output file)

/-- The bytes of the file after the run: `os.WriteFile` executes only on
the rewritten branch (src/cmd/root.go:130), otherwise the file keeps its
input bytes. -/
def finalFileContents (file : GoFile) : List Byte :=
  match runCore file with
  | RunResult.noMethods => file.src
  | RunResult.rewritten out => out

/-- Join with exactly two newline bytes between consecutive entries and
nothing before the first entry or after the last one: the separator shape
the specification describes. -/
def sepJoin : List (List Byte) → List Byte
  | [] => []
  | [s] => s
  | s :: rest => s ++ [10, 10] ++ sepJoin rest

/-- The spans the parser adapter reports for the same units when the
rewritten buffer is parsed again: the first unit starts where the splice
began, each unit occupies exactly its own text, and consecutive units are
separated by the two inserted newline bytes. -/
def relocated (pos : Nat) : List Method → List (List Byte) → List Method
  | m :: ms, t :: ts =>
    { name := m.name, start := pos, stop := pos + t.length }
      :: relocated (pos + t.length + 2) ms ts
  | _, _ => []

/-- A file whose only function declaration is a free function. -/
def fileFreeOnly : GoFile :=
  { src := [102, 104, 10],
    decls := [Decl.funcDecl { name := [104], recv := none, docPos := none, pos := 0, endPos := 3 },
              Decl.other] }

/-- A file with a single selected method spanning bytes `[1, 3)`. -/
def fileSingle : GoFile :=
  { src := [1, 2, 3, 4],
    decls := [Decl.funcDecl { name := [97], recv := some 1, docPos := none, pos := 1, endPos := 3 }] }

/-- A file with two selected methods out of name order (`z` on span
`[2, 5)`, `a` with a doc comment on span `[9, 13)`), an excluded
`NewX` constructor on `[6, 8)` between them, and a non-function
declaration. -/
def fileTwo : GoFile :=
  { src := [20, 21, 22, 23, 24, 25, 26, 27, 28, 29, 30, 31, 32, 33, 34, 35],
    decls := [
      Decl.other,
      Decl.funcDecl { name := [122], recv := some 1, docPos := none, pos := 2, endPos := 5 },
      Decl.funcDecl { name := [78, 101, 119, 88], recv := some 1, docPos := none,
                      pos := 6, endPos := 8 },
      Decl.funcDecl { name := [97], recv := some 1, docPos := some 9, pos := 10, endPos := 13 }] }

/-- The buffer `run` produces for `fileTwo`. -/
def outTwo : List Byte :=
  [20, 21, 29, 30, 31, 32, 10, 10, 22, 23, 24, 33, 34, 35]

/-- `fileTwo.src` with the bytes strictly between the two method spans
(indices 5 to 8: the excluded constructor's region) blanked out. -/
def srcTwoBlanked : List Byte :=
  [20, 21, 22, 23, 24, 0, 0, 0, 0, 29, 30, 31, 32, 33, 34, 35]

/-- The rewritten `fileTwo` as the parser adapter sees it on a second
run: the buffer is `outTwo` and the two methods are re-identified at the
offsets where the splice placed their texts (`a` with its doc comment on
`[2, 6)`, `z` on `[8, 11)`). -/
def file2Two : GoFile :=
  { src := outTwo,
    decls := [
      Decl.funcDecl { name := [97], recv := some 1, docPos := some 2, pos := 3, endPos := 6 },
      Decl.funcDecl { name := [122], recv := some 1, docPos := none, pos := 8, endPos := 11 }] }

/-!  Properties of the byte-wise lexicographic order. -/

theorem bytesLt_irrefl : ∀ a : List Byte, bytesLt a a = false
  | [] => rfl
  | b :: bs => by simp [bytesLt, bytesLt_irrefl bs]

theorem bytesLt_asymm : ∀ a b : List Byte, bytesLt a b = true → bytesLt b a = false
  | _, [], h => by simp [bytesLt] at h
  | [], _ :: _, _ => by simp [bytesLt]
  | a :: as, b :: bs, h => by
    simp only [bytesLt, Bool.or_eq_true, Bool.and_eq_true, beq_iff_eq,
      decide_eq_true_eq] at h
    rcases h with h | ⟨rfl, h⟩
    · simp only [bytesLt, Bool.or_eq_false_iff, Bool.and_eq_false_iff]
      exact ⟨by simp [Nat.not_lt_of_lt h], Or.inl (by simp [Nat.ne_of_lt h, Ne.symm])⟩
    · simp [bytesLt, bytesLt_asymm as bs h]

theorem bytesLt_trans : ∀ a b c : List Byte,
    bytesLt a b = true → bytesLt b c = true → bytesLt a c = true
  | _, _, [], _, h2 => by simp [bytesLt] at h2
  | _, [], _ :: _, h1, _ => by simp [bytesLt] at h1
  | [], _ :: _, _ :: _, _, _ => by simp [bytesLt]
  | a :: as, b :: bs, c :: cs, h1, h2 => by
    simp only [bytesLt, Bool.or_eq_true, Bool.and_eq_true, beq_iff_eq,
      decide_eq_true_eq] at h1 h2 ⊢
    rcases h1 with h1 | ⟨rfl, h1⟩
    · rcases h2 with h2 | ⟨rfl, h2⟩
      · exact Or.inl (Nat.lt_trans h1 h2)
      · exact Or.inl h1
    · rcases h2 with h2 | ⟨rfl, h2⟩
      · exact Or.inl h2
      · exact Or.inr ⟨rfl, bytesLt_trans as bs cs h1 h2⟩

theorem bytesLt_conn : ∀ a b : List Byte,
    bytesLt a b = false → bytesLt b a = false → a = b
  | [], [], _, _ => rfl
  | [], _ :: _, h, _ => by simp [bytesLt] at h
  | _ :: _, [], _, h => by simp [bytesLt] at h
  | a :: as, b :: bs, h1, h2 => by
    simp only [bytesLt, Bool.or_eq_false_iff, Bool.and_eq_false_iff,
      decide_eq_false_iff_not, beq_eq_false_iff_ne, ne_eq,
      Bool.not_eq_true] at h1 h2
    have hab : a = b := Nat.le_antisymm (Nat.le_of_not_lt h2.1) (Nat.le_of_not_lt h1.1)
    subst hab
    rcases h1.2 with h1' | h1'
    · exact absurd rfl h1'
    · rcases h2.2 with h2' | h2'
      · exact absurd rfl h2'
      · rw [bytesLt_conn as bs h1' h2']

theorem bytesLe_total (a b : List Byte) : bytesLe a b = true ∨ bytesLe b a = true := by
  unfold bytesLe
  rcases h : bytesLt b a
  · left; rfl
  · right; simp [bytesLt_asymm b a h]

theorem bytesLe_trans {a b c : List Byte}
    (h1 : bytesLe a b = true) (h2 : bytesLe b c = true) : bytesLe a c = true := by
  unfold bytesLe at h1 h2 ⊢
  simp only [Bool.not_eq_true'] at h1 h2 ⊢
  rcases hca : bytesLt c a
  · rfl
  · exfalso
    rcases hbc : bytesLt b c
    · have hbe : b = c := bytesLt_conn b c hbc h2
      subst hbe
      rw [hca] at h1
      exact Bool.noConfusion h1
    · have hba := bytesLt_trans b c a hbc hca
      rw [hba] at h1
      exact Bool.noConfusion h1

theorem byNameLe_total (a b : Method) : byNameLe a b ∨ byNameLe b a :=
  bytesLe_total a.name b.name

theorem byNameLe_trans (a b c : Method) (h1 : byNameLe a b) (h2 : byNameLe b c) :
    byNameLe a c :=
  bytesLe_trans h1 h2

theorem nameSorted_sorted (file : GoFile) : List.Sorted byNameLe (nameSorted file) := by
  haveI : IsTotal Method byNameLe := ⟨byNameLe_total⟩
  haveI : IsTrans Method byNameLe := ⟨byNameLe_trans⟩
  exact List.sorted_insertionSort byNameLe _

theorem posSorted_sorted (file : GoFile) : List.Sorted byPosLe (posSorted file) := by
  haveI : IsTotal Method byPosLe := ⟨fun a b => Nat.le_total a.start b.start⟩
  haveI : IsTrans Method byPosLe := ⟨fun _ _ _ h1 h2 => Nat.le_trans h1 h2⟩
  exact List.sorted_insertionSort byPosLe _

theorem intercalate_eq_sepJoin : ∀ ts : List (List Byte),
    List.intercalate [10, 10] ts = sepJoin ts
  | [] => by simp [List.intercalate, sepJoin]
  | [t] => by simp [List.intercalate, sepJoin]
  | t :: u :: ts => by
    have ih := intercalate_eq_sepJoin (u :: ts)
    simp only [List.intercalate, List.intersperse, List.flatten] at ih ⊢
    rw [ih]
    simp [sepJoin, List.append_assoc]

/-!  The claims. -/

/-- C1: a top-level declaration yields a reorderable unit iff it is a
function declaration whose receiver is present (non-nil) and it is not
the case that its name begins with "New" while the receiver field list is
non-empty; in particular free functions and "New"-prefixed methods are
never selected. -/
theorem claim1_selection_policy (d : Decl) :
    collectMethods [d] ≠ [] ↔
      ∃ f, d = Decl.funcDecl f ∧ f.recv.isSome = true ∧
        ¬(beginsWithNew f.name = true ∧ 0 < f.recv.getD 0) := by
  cases d with
  | other => simp [collectMethods]
  | funcDecl f =>
    cases hr : f.recv with
    | none => simp [collectMethods, hr]
    | some n =>
      by_cases hb : (beginsWithNew f.name && decide (0 < n)) = true
      · simp only [Bool.and_eq_true, decide_eq_true_eq] at hb
        simp [collectMethods, hr, Bool.and_eq_true, decide_eq_true_eq, hb.1]
      · simp [collectMethods, hr, hb]
        intro h
        simp only [Bool.and_eq_true, decide_eq_true_eq, h, true_and, Bool.true_and] at hb
        omega

/-- C3: the units in the produced buffer are sorted ascending by name
under the byte-wise lexicographic order: every adjacent pair of the
name-sorted list satisfies the order, and the output is the splice of
exactly that list's slices. -/
theorem claim3_sorted_by_name (file : GoFile) :
    List.Chain' byNameLe (nameSorted file)
    ∧ output file = file.src.take (firstStartOff file)
        ++ List.intercalate [10, 10]
            ((nameSorted file).map (fun m => slice file.src m.start m.stop))
        ++ file.src.drop (lastEndOff file) :=
  ⟨(nameSorted_sorted file).chain', rfl⟩

/-- C4: the joined text consists of the units' original slices with
exactly two newline bytes between consecutive units and no separator
before the first unit or after the last one. -/
theorem claim4_separator (file : GoFile) :
    joinedText file = sepJoin (sortedSources file)
    ∧ sortedSources file = (nameSorted file).map (fun m => slice file.src m.start m.stop) :=
  ⟨intercalate_eq_sepJoin _, rfl⟩

/-- C7: with zero selected units the run reports the no-methods signal,
produces no buffer, performs no write, and the file keeps its input
bytes. -/
theorem claim7_no_units (file : GoFile) (h : selectedMethods file = []) :
    runCore file = RunResult.noMethods ∧ finalFileContents file = file.src := by
  have h1 : runCore file = RunResult.noMethods := by
    unfold runCore
    rw [h]
  refine ⟨h1, ?_⟩
  unfold finalFileContents
  rw [h1]

/-- Witness for C7 on a file whose only declarations are a free function
and a non-function declaration. -/
theorem claim7_witness :
    selectedMethods fileFreeOnly = []
    ∧ (runCore fileFreeOnly = RunResult.noMethods
        ∧ finalFileContents fileFreeOnly = fileFreeOnly.src) :=
  ⟨by decide, claim7_no_units fileFreeOnly (by decide)⟩

/-- C10: with exactly one selected unit the run still takes the rewritten
path and the produced buffer is byte-identical to the input. -/
theorem claim10_single_unit (file : GoFile) (m : Method)
    (hsel : selectedMethods file = [m]) (hse : m.start ≤ m.stop) :
    runCore file = RunResult.rewritten file.src := by
  have hname : nameSorted file = [m] := by
    unfold nameSorted; rw [hsel]; rfl
  have hpos : posSorted file = [m] := by
    unfold posSorted; rw [hsel]; rfl
  have hfs : firstStartOff file = m.start := by
    unfold firstStartOff; rw [hpos]; rfl
  have hle : lastEndOff file = m.stop := by
    unfold lastEndOff; rw [hpos]; rfl
  have hjoin : joinedText file = slice file.src m.start m.stop := by
    unfold joinedText sortedSources
    rw [hname]
    simp [List.intercalate]
  have hout : output file = file.src := by
    unfold output
    rw [hfs, hle, hjoin]
    unfold slice
    calc file.src.take m.start ++ (file.src.take m.stop).drop m.start ++ file.src.drop m.stop
        = (file.src.take m.stop).take m.start ++ (file.src.take m.stop).drop m.start
            ++ file.src.drop m.stop := by
          rw [List.take_take, Nat.min_eq_left hse]
      _ = file.src.take m.stop ++ file.src.drop m.stop := by
          rw [List.take_append_drop]
      _ = file.src := List.take_append_drop _ _
  have hrun : runCore file = RunResult.rewritten (output file) := by
    unfold runCore
    rw [hsel]
  rw [hrun, hout]

/-- Pointwise agreement below `n` transfers to `take n`. -/
theorem take_eq_of_agree {a b : List Byte} (n : Nat)
    (h : ∀ i, i < n → a[i]? = b[i]?) : a.take n = b.take n := by
  apply List.ext_getElem?
  intro i
  rw [List.getElem?_take, List.getElem?_take]
  split
  · exact h i (by assumption)
  · rfl

/-- Pointwise agreement at or above `n` transfers to `drop n`. -/
theorem drop_eq_of_agree {a b : List Byte} (n : Nat)
    (h : ∀ i, n ≤ i → a[i]? = b[i]?) : a.drop n = b.drop n := by
  apply List.ext_getElem?
  intro k
  rw [List.getElem?_drop, List.getElem?_drop]
  exact h (n + k) (Nat.le_add_right _ _)

/-- Pointwise agreement on `[s, e)` transfers to `slice`. -/
theorem slice_eq_of_agree {a b : List Byte} (s e : Nat)
    (h : ∀ i, s ≤ i → i < e → a[i]? = b[i]?) : slice a s e = slice b s e := by
  unfold slice
  apply List.ext_getElem?
  intro k
  rw [List.getElem?_drop, List.getElem?_drop, List.getElem?_take, List.getElem?_take]
  split
  · exact h (s + k) (Nat.le_add_right _ _) (by assumption)
  · rfl

theorem getLastD_cons_cons (a b : Method) (t : List Method) :
    (a :: b :: t).getLastD defaultMethod = (b :: t).getLastD defaultMethod := rfl

theorem getLastD_cons_mem : ∀ (t : List Method) (b : Method),
    (b :: t).getLastD defaultMethod ∈ b :: t
  | [], b => by simp
  | c :: t, b => by
    rw [getLastD_cons_cons]
    exact List.mem_cons_of_mem _ (getLastD_cons_mem t c)

theorem le_getLastD_of_sorted : ∀ (l : List Method), List.Sorted byPosLe l →
    ∀ m ∈ l, byPosLe m (l.getLastD defaultMethod)
  | [], _, m, hm => absurd hm (List.not_mem_nil m)
  | [_], _, m, hm => by
    rcases List.mem_singleton.mp hm with rfl
    exact Nat.le_refl _
  | _ :: b :: t, hl, m, hm => by
    rw [getLastD_cons_cons]
    rcases List.mem_cons.mp hm with rfl | hm'
    · exact List.rel_of_sorted_cons hl _ (getLastD_cons_mem t b)
    · exact le_getLastD_of_sorted (b :: t) hl.of_cons m hm'

theorem headD_le_of_sorted (l : List Method) (hl : List.Sorted byPosLe l)
    (m : Method) (hm : m ∈ l) : byPosLe (l.headD defaultMethod) m := by
  cases l with
  | nil => exact absurd hm (List.not_mem_nil m)
  | cons a t =>
    rcases List.mem_cons.mp hm with rfl | hm'
    · exact Nat.le_refl _
    · exact List.rel_of_sorted_cons hl _ hm'

/-- C5: every selected unit's start offset is the byte offset of the
attached doc comment when one exists and the declaration's own offset
otherwise, and its end offset is the declaration's end offset. -/
theorem claim5_span_offsets (decls : List Decl) (m : Method)
    (hm : m ∈ collectMethods decls) :
    ∃ f, Decl.funcDecl f ∈ decls ∧ m.name = f.name
      ∧ m.start = (match f.docPos with | some p => p | none => f.pos)
      ∧ m.stop = f.endPos := by
  induction decls with
  | nil => exact absurd hm (List.not_mem_nil m)
  | cons d rest ih =>
    cases d with
    | other =>
      obtain ⟨f, hf, h⟩ := ih hm
      exact ⟨f, List.mem_cons_of_mem _ hf, h⟩
    | funcDecl f =>
      cases hr : f.recv with
      | none =>
        rw [show collectMethods (Decl.funcDecl f :: rest) = collectMethods rest by
          simp [collectMethods, hr]] at hm
        obtain ⟨g, hg, h⟩ := ih hm
        exact ⟨g, List.mem_cons_of_mem _ hg, h⟩
      | some n =>
        have hstep : collectMethods (Decl.funcDecl f :: rest)
            = if beginsWithNew f.name && decide (0 < n) then collectMethods rest
              else { name := f.name, start := declStart f, stop := f.endPos }
                  :: collectMethods rest := by
          simp [collectMethods, hr]
        rw [hstep] at hm
        by_cases hb : (beginsWithNew f.name && decide (0 < n)) = true
        · rw [if_pos hb] at hm
          obtain ⟨g, hg, h⟩ := ih hm
          exact ⟨g, List.mem_cons_of_mem _ hg, h⟩
        · rw [if_neg hb] at hm
          rcases List.mem_cons.mp hm with rfl | hm'
          · exact ⟨f, List.mem_cons_self _ _, rfl, rfl, rfl⟩
          · obtain ⟨g, hg, h⟩ := ih hm'
            exact ⟨g, List.mem_cons_of_mem _ hg, h⟩

/-- Witness for C5 on `fileTwo`: the doc-commented method `a` starts at
its doc comment's offset. -/
theorem claim5_witness :
    ∃ f, Decl.funcDecl f ∈ fileTwo.decls
      ∧ ({ name := [97], start := 9, stop := 13 } : Method).name = f.name
      ∧ ({ name := [97], start := 9, stop := 13 } : Method).start
          = (match f.docPos with | some p => p | none => f.pos)
      ∧ ({ name := [97], start := 9, stop := 13 } : Method).stop = f.endPos :=
  claim5_span_offsets fileTwo.decls { name := [97], start := 9, stop := 13 } (by decide)

/-- C2: with at least one selected unit the produced buffer is
`src[0:firstStart] ++ joined ++ src[lastEnd:]`; every byte strictly
before `firstStart` is unchanged at the same position, and every byte at
or after `lastEnd` reappears verbatim right after the joined block. -/
theorem claim2_splice_frame (file : GoFile) (out : List Byte)
    (hrun : runCore file = RunResult.rewritten out)
    (hfs : firstStartOff file ≤ file.src.length) :
    out = file.src.take (firstStartOff file) ++ joinedText file
        ++ file.src.drop (lastEndOff file)
    ∧ (∀ i, i < firstStartOff file → out[i]? = file.src[i]?)
    ∧ (∀ k, out[firstStartOff file + (joinedText file).length + k]?
          = file.src[lastEndOff file + k]?) := by
  have hb : out = file.src.take (firstStartOff file) ++ joinedText file
      ++ file.src.drop (lastEndOff file) := by
    cases hsel : selectedMethods file with
    | nil =>
      unfold runCore at hrun
      rw [hsel] at hrun
      exact absurd hrun (by simp)
    | cons m ms =>
      unfold runCore at hrun
      rw [hsel] at hrun
      exact (RunResult.rewritten.injEq _ _ |>.mp hrun.symm)
  have hlen1 : (file.src.take (firstStartOff file)).length = firstStartOff file := by
    rw [List.length_take]
    omega
  refine ⟨hb, ?_, ?_⟩
  · intro i hi
    rw [hb, List.getElem?_append]
    rw [if_pos (by rw [List.length_append, hlen1]; omega)]
    rw [List.getElem?_append]
    rw [if_pos (by rw [hlen1]; omega)]
    rw [List.getElem?_take, if_pos hi]
  · intro k
    rw [hb, List.getElem?_append]
    rw [if_neg (by rw [List.length_append, hlen1]; omega)]
    have hidx : firstStartOff file + (joinedText file).length + k
        - (file.src.take (firstStartOff file) ++ joinedText file).length = k := by
      rw [List.length_append, hlen1]
      omega
    rw [hidx, List.getElem?_drop]

/-- Witness for C2 on `fileTwo`. -/
theorem claim2_witness :
    outTwo = fileTwo.src.take (firstStartOff fileTwo) ++ joinedText fileTwo
      ++ fileTwo.src.drop (lastEndOff fileTwo) :=
  (claim2_splice_frame fileTwo outTwo (by decide) (by decide)).1

/-- C6: bytes lying strictly inside `[firstStart, lastEnd)` but outside
every selected unit's span (the bytes of non-selected declarations
interleaved among the methods) never reach the produced buffer:
replacing them arbitrarily, keeping the length, changes neither the
output buffer nor the run result. -/
theorem claim6_interior_dropped (file : GoFile) (src2 : List Byte)
    (hlen : src2.length = file.src.length)
    (hagree : ∀ i, i < file.src.length →
      (i < firstStartOff file ∨ lastEndOff file ≤ i ∨
        ∃ m ∈ selectedMethods file, m.start ≤ i ∧ i < m.stop) →
      src2[i]? = file.src[i]?) :
    output { src := src2, decls := file.decls } = output file
    ∧ runCore { src := src2, decls := file.decls } = runCore file := by
  have hagree' : ∀ i,
      (i < firstStartOff file ∨ lastEndOff file ≤ i ∨
        ∃ m ∈ selectedMethods file, m.start ≤ i ∧ i < m.stop) →
      src2[i]? = file.src[i]? := by
    intro i hcond
    by_cases hilen : i < file.src.length
    · exact hagree i hilen hcond
    · rw [List.getElem?_eq_none (by omega), List.getElem?_eq_none (by omega)]
  have hsel : selectedMethods { src := src2, decls := file.decls }
      = selectedMethods file := rfl
  have hfs : firstStartOff { src := src2, decls := file.decls } = firstStartOff file := rfl
  have hle : lastEndOff { src := src2, decls := file.decls } = lastEndOff file := rfl
  have hns : nameSorted { src := src2, decls := file.decls } = nameSorted file := rfl
  have h1 : List.take (firstStartOff file) src2 = List.take (firstStartOff file) file.src :=
    take_eq_of_agree _ (fun i hi => hagree' i (Or.inl hi))
  have h2 : List.map (fun m => slice src2 m.start m.stop) (nameSorted file)
      = List.map (fun m => slice file.src m.start m.stop) (nameSorted file) := by
    apply List.map_congr_left
    intro m hmns
    have hmsel : m ∈ selectedMethods file := (List.mem_insertionSort byNameLe).mp hmns
    exact slice_eq_of_agree m.start m.stop
      (fun i hi1 hi2 => hagree' i (Or.inr (Or.inr ⟨m, hmsel, hi1, hi2⟩)))
  have h3 : List.drop (lastEndOff file) src2 = List.drop (lastEndOff file) file.src :=
    drop_eq_of_agree _ (fun i hi => hagree' i (Or.inr (Or.inl hi)))
  have hout : output { src := src2, decls := file.decls } = output file := by
    unfold output joinedText sortedSources
    rw [hfs, hle, hns]
    rw [show ({ src := src2, decls := file.decls } : GoFile).src = src2 from rfl]
    rw [h1, h2, h3]
  refine ⟨hout, ?_⟩
  show (match selectedMethods file with
    | [] => RunResult.noMethods
    | _ :: _ => RunResult.rewritten (output { src := src2, decls := file.decls })) = runCore file
  unfold runCore
  cases selectedMethods file with
  | nil => rfl
  | cons m ms => rw [hout]

/-- Witness for C6 on `fileTwo` with the excluded constructor's bytes
blanked out. -/
theorem claim6_witness :
    output { src := srcTwoBlanked, decls := fileTwo.decls } = output fileTwo
    ∧ runCore { src := srcTwoBlanked, decls := fileTwo.decls } = runCore fileTwo :=
  claim6_interior_dropped fileTwo srcTwoBlanked (by decide) (by decide)

/-- C9: `firstStartOff` is the minimum start offset and `lastEndOff` the
maximum end offset over the selected units, under the invariant that
spans are proper (`start < stop`) and pairwise non-overlapping. -/
theorem claim9_min_max (file : GoFile)
    (hne : selectedMethods file ≠ [])
    (hlt : ∀ m ∈ selectedMethods file, m.start < m.stop)
    (hdisj : (selectedMethods file).Pairwise
      (fun a b => a.stop ≤ b.start ∨ b.stop ≤ a.start)) :
    ((selectedMethods file).map Method.start).min? = some (firstStartOff file)
    ∧ ((selectedMethods file).map Method.stop).max? = some (lastEndOff file) := by
  have hsort := posSorted_sorted file
  cases hP : posSorted file with
  | nil =>
    have hlenP := List.length_insertionSort byPosLe (selectedMethods file)
    rw [show List.insertionSort byPosLe (selectedMethods file) = posSorted file from rfl,
      hP] at hlenP
    exact absurd (List.eq_nil_of_length_eq_zero hlenP.symm) hne
  | cons p P' =>
    have hfs : firstStartOff file = p.start := by
      unfold firstStartOff
      rw [hP]
      rfl
    have hle : lastEndOff file = ((p :: P').getLastD defaultMethod).stop := by
      unfold lastEndOff
      rw [hP]
    have hpsel : p ∈ selectedMethods file := by
      refine (List.mem_insertionSort byPosLe).mp ?_
      show p ∈ posSorted file
      rw [hP]
      exact List.mem_cons_self _ _
    have hqP : (p :: P').getLastD defaultMethod ∈ posSorted file := by
      rw [hP]
      exact getLastD_cons_mem P' p
    have hqsel : (p :: P').getLastD defaultMethod ∈ selectedMethods file :=
      (List.mem_insertionSort byPosLe).mp hqP
    constructor
    · rw [List.min?_eq_some_iff (fun a => Nat.le_refl a) (fun a b => by omega)
        (fun a b c => by omega)]
      constructor
      · exact List.mem_map.mpr ⟨p, hpsel, hfs.symm⟩
      · intro b hbmem
        obtain ⟨m, hmsel, rfl⟩ := List.mem_map.mp hbmem
        have hmP : m ∈ posSorted file := (List.mem_insertionSort byPosLe).mpr hmsel
        have := headD_le_of_sorted (posSorted file) hsort m hmP
        rw [hP] at this
        rw [hfs]
        exact this
    · rw [List.max?_eq_some_iff (fun a => Nat.le_refl a) (fun a b => by omega)
        (fun a b c => by omega)]
      constructor
      · exact List.mem_map.mpr ⟨(p :: P').getLastD defaultMethod, hqsel, hle.symm⟩
      · intro b hbmem
        obtain ⟨m, hmsel, rfl⟩ := List.mem_map.mp hbmem
        rw [hle]
        by_cases hmq : m = (p :: P').getLastD defaultMethod
        · rw [hmq]
        · have hsym : Symmetric (fun a b : Method => a.stop ≤ b.start ∨ b.stop ≤ a.start) :=
            fun a b h => h.symm
          have hrel := hdisj.forall hsym hmsel hqsel hmq
          have hmP : m ∈ posSorted file := (List.mem_insertionSort byPosLe).mpr hmsel
          have hms : byPosLe m ((posSorted file).getLastD defaultMethod) :=
            le_getLastD_of_sorted (posSorted file) hsort m hmP
          rw [hP] at hms
          have hqlt := hlt _ hqsel
          unfold byPosLe at hms
          rcases hrel with h | h
          · omega
          · omega

/-- Witness for C9 on `fileTwo`. -/
theorem claim9_witness :
    ((selectedMethods fileTwo).map Method.start).min? = some (firstStartOff fileTwo)
    ∧ ((selectedMethods fileTwo).map Method.stop).max? = some (lastEndOff fileTwo) :=
  claim9_min_max fileTwo (by decide) (by decide) (by decide)

/-- Witness for C10 on a file with a single selected method. -/
theorem claim10_witness :
    selectedMethods fileSingle = [{ name := [97], start := 1, stop := 3 }]
    ∧ runCore fileSingle = RunResult.rewritten fileSingle.src :=
  ⟨by decide, claim10_single_unit fileSingle { name := [97], start := 1, stop := 3 }
    (by decide) (by decide)⟩

/-!  Lemmas about `relocated`, used for the idempotence claim. -/

theorem relocated_cons (pos : Nat) (m : Method) (ms : List Method)
    (t : List Byte) (ts : List (List Byte)) :
    relocated pos (m :: ms) (t :: ts)
      = { name := m.name, start := pos, stop := pos + t.length }
          :: relocated (pos + t.length + 2) ms ts := rfl

theorem relocated_ne_nil (pos : Nat) (m : Method) (ms : List Method)
    (t : List Byte) (ts : List (List Byte)) :
    relocated pos (m :: ms) (t :: ts) ≠ [] := by
  rw [relocated_cons]
  exact List.cons_ne_nil _ _

theorem relocated_names : ∀ (ms : List Method) (ts : List (List Byte)) (pos : Nat),
    ms.length = ts.length →
    (relocated pos ms ts).map Method.name = ms.map Method.name
  | [], [], _, _ => rfl
  | [], _ :: _, _, h => by simp at h
  | _ :: _, [], _, h => by simp at h
  | m :: ms, t :: ts, pos, h => by
    rw [relocated_cons, List.map_cons, List.map_cons,
      relocated_names ms ts (pos + t.length + 2) (by simpa using h)]

theorem relocated_pos_bound : ∀ (ms : List Method) (ts : List (List Byte)) (pos : Nat),
    List.Sorted byPosLe (relocated pos ms ts)
    ∧ ∀ m ∈ relocated pos ms ts, pos ≤ m.start
  | [], ts, pos => by
    constructor
    · cases ts <;> exact List.sorted_nil
    · intro m hm
      cases ts <;> exact absurd hm (List.not_mem_nil m)
  | _ :: _, [], pos => by
    constructor
    · exact List.sorted_nil
    · intro x hx
      exact absurd hx (List.not_mem_nil x)
  | m :: ms, t :: ts, pos => by
    obtain ⟨ih1, ih2⟩ := relocated_pos_bound ms ts (pos + t.length + 2)
    rw [relocated_cons]
    constructor
    · rw [List.sorted_cons]
      refine ⟨?_, ih1⟩
      intro b hb
      have hpb := ih2 b hb
      show pos ≤ b.start
      omega
    · intro x hx
      rcases List.mem_cons.mp hx with rfl | hx'
      · exact Nat.le_refl _
      · have hpx := ih2 x hx'
        omega

theorem getLastD_cons_of_ne (u : Method) (rest : List Method) (h : rest ≠ []) :
    (u :: rest).getLastD defaultMethod = rest.getLastD defaultMethod := by
  cases rest with
  | nil => exact absurd rfl h
  | cons b t => rfl

theorem sepJoin_cons_cons (t u : List Byte) (ts : List (List Byte)) :
    sepJoin (t :: u :: ts) = t ++ [10, 10] ++ sepJoin (u :: ts) := rfl

theorem relocated_getLastD_stop : ∀ (ms : List Method) (ts : List (List Byte)) (pos : Nat),
    ms ≠ [] → ms.length = ts.length →
    ((relocated pos ms ts).getLastD defaultMethod).stop
      = pos + (List.intercalate [10, 10] ts).length
  | [], _, _, hne, _ => absurd rfl hne
  | [m], ts, pos, _, hlen => by
    cases ts with
    | nil => simp at hlen
    | cons t ts' =>
      cases ts' with
      | nil =>
        rw [relocated_cons, intercalate_eq_sepJoin]
        rfl
      | cons t' ts'' => simp at hlen
  | m :: m' :: ms'', ts, pos, _, hlen => by
    cases ts with
    | nil => simp at hlen
    | cons t ts' =>
      cases ts' with
      | nil => simp at hlen
      | cons t' ts'' =>
        rw [relocated_cons]
        rw [getLastD_cons_of_ne _ _ (relocated_ne_nil _ _ _ _ _)]
        rw [relocated_getLastD_stop (m' :: ms'') (t' :: ts'') (pos + t.length + 2)
          (List.cons_ne_nil _ _) (by simpa using hlen)]
        rw [intercalate_eq_sepJoin, intercalate_eq_sepJoin, sepJoin_cons_cons]
        simp only [List.length_append, List.length_cons, List.length_nil]
        omega

theorem take_append_of_length (p x : List Byte) (n : Nat) (h : p.length = n) :
    (p ++ x).take n = p := by
  subst h
  exact List.take_left _ _

theorem drop_append_of_length (p x : List Byte) (n : Nat) (h : p.length = n) :
    (p ++ x).drop n = x := by
  subst h
  exact List.drop_left _ _

theorem slice_append_middle (p mid sfx : List Byte) :
    slice (p ++ mid ++ sfx) p.length (p.length + mid.length) = mid := by
  unfold slice
  rw [List.append_assoc]
  rw [List.take_append_eq_append_take]
  rw [show List.take (p.length + mid.length) p = p from
    List.take_of_length_le (by omega)]
  rw [Nat.add_sub_cancel_left]
  rw [List.take_append_eq_append_take]
  rw [List.take_length, Nat.sub_self, List.take_zero, List.append_nil]
  rw [List.drop_append_eq_append_drop]
  rw [List.drop_length, Nat.sub_self, List.drop_zero, List.nil_append]

theorem relocated_slices : ∀ (ms : List Method) (ts : List (List Byte))
    (buf p sfx : List Byte) (pos : Nat),
    ms.length = ts.length → p.length = pos →
    buf = p ++ List.intercalate [10, 10] ts ++ sfx →
    (relocated pos ms ts).map (fun m => slice buf m.start m.stop) = ts
  | [], [], _, _, _, _, _, _, _ => rfl
  | [], _ :: _, _, _, _, _, h, _, _ => by simp at h
  | _ :: _, [], _, _, _, _, h, _, _ => by simp at h
  | m :: ms', t :: ts', buf, p, sfx, pos, hlen, hp, hbuf => by
    rw [relocated_cons, List.map_cons]
    congr 1
    · subst hp
      cases ts' with
      | nil =>
        rw [hbuf, intercalate_eq_sepJoin]
        rw [show sepJoin [t] = t from rfl]
        exact slice_append_middle p t sfx
      | cons t' ts'' =>
        rw [hbuf, intercalate_eq_sepJoin, sepJoin_cons_cons]
        rw [show p ++ (t ++ [10, 10] ++ sepJoin (t' :: ts'')) ++ sfx
            = p ++ t ++ ([10, 10] ++ (sepJoin (t' :: ts'') ++ sfx)) by
          simp [List.append_assoc]]
        exact slice_append_middle p t _
    · cases ts' with
      | nil =>
        have hms' : ms' = [] := by simpa using hlen
        subst hms'
        rfl
      | cons t' ts'' =>
        apply relocated_slices ms' (t' :: ts'') buf (p ++ t ++ [10, 10]) sfx
        · simpa using hlen
        · simp only [List.length_append, List.length_cons, List.length_nil]
          omega
        · rw [hbuf, intercalate_eq_sepJoin, sepJoin_cons_cons, intercalate_eq_sepJoin]
          simp [List.append_assoc]

/-- C8: the rewrite is idempotent.  If one run rewrites the file, and the
parser adapter re-identifies the spliced units in the rewritten buffer
(each unit sitting exactly where the splice placed its text, as described
by `relocated`), then a second run, here under the claim's hypothesis
that no two selected units share a name, produces the rewritten buffer
again: the output is a fixed point. -/
theorem claim8_idempotent (file file2 : GoFile) (out : List Byte)
    (hrun : runCore file = RunResult.rewritten out)
    (hfs : firstStartOff file ≤ file.src.length)
    (_hnodup : (selectedMethods file).Pairwise (fun a b : Method => a.name ≠ b.name))
    (hsrc2 : file2.src = out)
    (hsel2 : selectedMethods file2
      = relocated (firstStartOff file) (nameSorted file) (sortedSources file)) :
    runCore file2 = RunResult.rewritten out := by
  have hselne : selectedMethods file ≠ [] := by
    intro hnil
    unfold runCore at hrun
    rw [hnil] at hrun
    exact RunResult.noConfusion hrun
  have hout : output file = out := by
    cases hsel : selectedMethods file with
    | nil => exact absurd hsel hselne
    | cons a l =>
      unfold runCore at hrun
      rw [hsel] at hrun
      exact (RunResult.rewritten.injEq _ _).mp hrun
  have hmslen : (nameSorted file).length = (selectedMethods file).length :=
    List.length_insertionSort _ _
  have hmsne : nameSorted file ≠ [] := by
    intro h
    apply hselne
    apply List.eq_nil_of_length_eq_zero
    rw [← hmslen, h]
    rfl
  have hlen : (nameSorted file).length = (sortedSources file).length := by
    unfold sortedSources
    rw [List.length_map]
  have hp : (file.src.take (firstStartOff file)).length = firstStartOff file := by
    rw [List.length_take]
    omega
  have hbuf : out = file.src.take (firstStartOff file)
      ++ List.intercalate [10, 10] (sortedSources file)
      ++ file.src.drop (lastEndOff file) := by
    rw [← hout]
    rfl
  have hRnames : (relocated (firstStartOff file) (nameSorted file)
        (sortedSources file)).map Method.name
      = (nameSorted file).map Method.name := relocated_names _ _ _ hlen
  have hRsortedName : List.Sorted byNameLe
      (relocated (firstStartOff file) (nameSorted file) (sortedSources file)) := by
    have h1 : List.Pairwise byNameLe (nameSorted file) := nameSorted_sorted file
    have h2 : List.Pairwise (fun x y : List Byte => bytesLe x y = true)
        ((nameSorted file).map Method.name) := List.pairwise_map.mpr h1
    rw [← hRnames] at h2
    have h3 := List.pairwise_map.mp h2
    exact h3
  have hRsortedPos := (relocated_pos_bound (nameSorted file) (sortedSources file)
    (firstStartOff file)).1
  have hns2 : nameSorted file2
      = relocated (firstStartOff file) (nameSorted file) (sortedSources file) := by
    unfold nameSorted
    rw [hsel2]
    exact List.Sorted.insertionSort_eq hRsortedName
  have hps2 : posSorted file2
      = relocated (firstStartOff file) (nameSorted file) (sortedSources file) := by
    unfold posSorted
    rw [hsel2]
    exact List.Sorted.insertionSort_eq hRsortedPos
  cases hms : nameSorted file with
  | nil => exact absurd hms hmsne
  | cons m0 ms' =>
    have hts : sortedSources file
        = slice file.src m0.start m0.stop
            :: ms'.map (fun m => slice file.src m.start m.stop) := by
      unfold sortedSources
      rw [hms]
      rfl
    have hfs2 : firstStartOff file2 = firstStartOff file := by
      unfold firstStartOff
      rw [hps2, hms, hts, relocated_cons]
      rfl
    have hle2 : lastEndOff file2 = firstStartOff file
        + (List.intercalate [10, 10] (sortedSources file)).length := by
      unfold lastEndOff
      rw [hps2]
      exact relocated_getLastD_stop _ _ _ (by rw [hms]; exact List.cons_ne_nil _ _) hlen
    have hsrcs2 : sortedSources file2 = sortedSources file := by
      unfold sortedSources
      rw [hns2, hsrc2]
      exact relocated_slices _ _ _ _ _ _ hlen hp hbuf
    have htake : (file.src.take (firstStartOff file)
          ++ List.intercalate [10, 10] (sortedSources file)
          ++ file.src.drop (lastEndOff file)).take (firstStartOff file)
        = file.src.take (firstStartOff file) := by
      rw [List.append_assoc]
      exact take_append_of_length _ _ _ hp
    have hdrop : (file.src.take (firstStartOff file)
          ++ List.intercalate [10, 10] (sortedSources file)
          ++ file.src.drop (lastEndOff file)).drop
            (firstStartOff file + (List.intercalate [10, 10] (sortedSources file)).length)
        = file.src.drop (lastEndOff file) := by
      exact drop_append_of_length _ _ _ (by rw [List.length_append, hp])
    have hout2 : output file2 = out := by
      unfold output joinedText
      rw [hfs2, hle2, hsrcs2, hsrc2, hbuf, htake, hdrop]
    unfold runCore
    cases hsel2' : selectedMethods file2 with
    | nil =>
      rw [hsel2, hms, hts, relocated_cons] at hsel2'
      simp at hsel2'
    | cons a l =>
      rw [hout2]

/-- Witness for C8: the rewritten `fileTwo` is a fixed point of the
second run. -/
theorem claim8_witness :
    runCore file2Two = RunResult.rewritten outTwo :=
  claim8_idempotent fileTwo file2Two outTwo (by decide) (by decide) (by decide)
    (by decide) (by decide)

end GoFuncFormatter
